import Mathlib

/-!
Verification development for the de2gui core: the tick/event scheduler and
input/output state model of the DE2-115 front-panel facsimile
(`de2gui/de2gui.go`, `de2gui/widgets/ledwidget/ledwidget.go`,
`de2gui/widgets/hexwidget/hexwidget.go`).

Embedding notes.

* Machine integers are modelled as `Nat` with explicit `% 2^32` / `% 2^64`
  where the Go code can overflow (`uint32` key/LED banks, `uint64` ticks).
* The Go callbacks stored in `UIState.futures` (values of type
  `func(*UIState)`) are modelled by a small closed type `Cb` of state
  transformers, covering the closures the program and its callers use:
  the internal key-release closure scheduled by `pushKey`, an external
  observer callback (which only records that it fired), and an external
  callback that calls `ScheduleFuture` when it fires.  A structure field of
  function type `UIState → UIState` would not be a valid inductive type, so
  the closures are deep-embedded and interpreted by `runCb`.
* Callback invocations (`OnKEY`, `OnTick`, firing of an observer future)
  are recorded in an observation `log`, so "was invoked / how many times /
  in what order" becomes a statement about the log.  The caller-supplied
  `OnTick` is modelled as the per-tick callback described by the spec's
  premises: it increments `Tick` by exactly 1 (mod 2^64) per step and
  records its `final` flag; `OnKEY` records the key bank it observes.
* `futures` is a Go `map[uint64][]func(*UIState)`.  Go map iteration order
  is unspecified; the embedding determinizes it as an insertion-ordered
  association list, and `fireStep` iterates over the snapshot of keys
  present when the pass starts (one behavior Go permits).  Appends to a
  bucket that is currently being drained are seen by the pass only through
  the final `delete` of that bucket, exactly as in Go, because the inner
  loop iterates over the slice snapshot taken when the bucket is visited.
-/

/-- Observable callback invocations, in program order. -/
inductive Event where
  | onKey (keyState : Nat)
  | onTick (final : Bool)
  | fired (id : Nat)
deriving DecidableEq, Repr

/-- Deep-embedded callbacks that can sit in the futures registry. -/
inductive Cb where
  | releaseKey (i : Nat)
  | marker (id : Nat)
  | scheduleOnFire (whn : Nat) (id : Nat)
deriving DecidableEq, Repr

/-- The de2gui `UIState` (state storage plus the displayed label texts of the
widgets the claims mention; geometry/colors are presentation and out of
scope).  `ledr`/`ledg` are the `LedWidget.state` fields of the two LED
widgets, `hex` the `segments` bytes of the eight `HexWidget`s. -/
structure UIState where
  key : Nat
  futures : List (Nat × List Cb)
  ledr : Nat
  ledrLabel : String
  ledg : Nat
  ledgLabel : String
  hex : List Nat
  cycleLabel : String
  Tick : Nat
  log : List Event
deriving DecidableEq, Repr

def numHex : Nat := 8

def numRedLeds : Nat := 18

def numGreenLeds : Nat := 9

/-- `KeyPushMinTime uint64 = 10`. -/
def KeyPushMinTime : Nat := 10

/-- `KeyPushMaxTime uint64 = 250`. -/
def KeyPushMaxTime : Nat := 250

/-- `NewUIState`: keys cleared, no futures, LED widgets start at state 0 with
the initial label texts, hex widgets updated to `0xff`, tick 0. -/
def initState : UIState :=
  { key := 0
    futures := []
    ledr := 0
    ledrLabel := "(0x00000)"
    ledg := 0
    ledgLabel := "(0x000)"
    hex := List.replicate numHex 255
    cycleLabel := "cycle# --"
    Tick := 0
    log := [] }

/-- `LedWidget.Mask`: `mask = 0; for i < count { mask = (mask<<1)|1 }` on a
`uint32`. -/
def ledMaskFn (count : Nat) : Nat :=
  (List.range count).foldl (fun m _ => ((m <<< 1) ||| 1) % 2 ^ 32) 0

/-- Lower-case hex digit character, as produced by Go's `%x` verb. -/
def hexDigitChar (n : Nat) : Char :=
  if n < 10 then Char.ofNat (48 + n) else Char.ofNat (87 + n)

/-- Hex digits of `n` (most significant first); the first argument is fuel,
always instantiated with `n` itself. -/
def toHexList : Nat → Nat → List Char
  | 0, _ => []
  | fuel + 1, n => if n = 0 then [] else toHexList fuel (n / 16) ++ [hexDigitChar (n % 16)]

/-- Lower-case hexadecimal rendering of `n`, as Go's `%x`. -/
def toHex (n : Nat) : String :=
  if n = 0 then "0" else String.mk (toHexList n n)

/-- Zero-pad `str` on the left to a minimum width `w` (Go's `%0Nx` padding). -/
def padZero (w : Nat) (str : String) : String :=
  String.mk (List.replicate (w - str.length) '0') ++ str

/-- The text `fmt.Sprintf("(0x%0Wx)", n)` produces. -/
def hexLabel (w n : Nat) : String :=
  "(0x" ++ padZero w (toHex n) ++ ")"

/-- `SetLEDR`: `ledrWidget.Update(state)` (mask to 18 bits) then set the red
label from `ledrWidget.State()` with `"(0x%05x)"`. -/
def setLEDR (s : UIState) (state : Nat) : UIState :=
  let w := state &&& ledMaskFn numRedLeds
  { s with ledr := w, ledrLabel := hexLabel 5 w }

/-- `SetLEDG`: `ledgWidget.Update(state)` (mask to 9 bits) then set the green
label with `"(0x%03x)"` — from `s.ledrWidget.State()`, exactly as the source
does. -/
def setLEDG (s : UIState) (state : Nat) : UIState :=
  let w := state &&& ledMaskFn numGreenLeds
  { s with ledg := w, ledgLabel := hexLabel 3 s.ledr }

/-- `SetHEX`: `s.hexWidgets[i%numHex].Update(state)`.  `i` is a Go `int` and
`%` is Go's truncated remainder (`Int.tmod`); indexing a slice with a
negative (or too large) index panics, modelled as `none`. -/
def setHEX (s : UIState) (i : Int) (state : Nat) : Option UIState :=
  let idx := Int.tmod i (Int.ofNat numHex)
  if 0 ≤ idx ∧ idx < Int.ofNat s.hex.length then
    some { s with hex := s.hex.set idx.toNat state }
  else
    none

/-- Append a callback to the bucket for `whn`, creating the bucket at the end
of the list if absent (`ScheduleFuture`'s map update, with Go's map
determinized as an insertion-ordered association list). -/
def addToBucket : List (Nat × List Cb) → Nat → Cb → List (Nat × List Cb)
  | [], whn, f => [(whn, [f])]
  | (k, l) :: rest, whn, f =>
    if k = whn then (k, l ++ [f]) :: rest
    else (k, l) :: addToBucket rest whn f

/-- `ScheduleFuture(when, f)`. -/
def scheduleFuture (s : UIState) (whn : Nat) (f : Cb) : UIState :=
  { s with futures := addToBucket s.futures whn f }

/-- The `if s.OnKEY != nil { s.OnKEY(s) }` call: the modelled `OnKEY`
records the key bank it observes. -/
def runOnKEY (s : UIState) : UIState :=
  { s with log := s.log ++ [Event.onKey s.key] }

/-- `releaseKey(i)`: `s.key &= ^(1 << i)` on a `uint32`, then `OnKEY`. -/
def releaseKeyFn (s : UIState) (i : Nat) : UIState :=
  runOnKEY { s with key := s.key &&& ((2 ^ 32 - 1) ^^^ (1 <<< i) % 2 ^ 32) }

/-- `pushKey(i)` with the pseudo-random draw
`r = uint64(rand.Float64()*float64(KeyPushMaxTime) + float64(KeyPushMinTime))`
passed in as a parameter (`rand.Float64() ∈ [0,1)` makes
`KeyPushMinTime ≤ r < KeyPushMinTime + KeyPushMaxTime`): schedule the release
at `s.Tick + r` (`uint64` addition), set bit `i` of the key bank (`uint32`),
then `OnKEY`. -/
def pushKey (s : UIState) (i : Nat) (r : Nat) : UIState :=
  let release := (s.Tick + r) % 2 ^ 64
  let s1 := scheduleFuture s release (Cb.releaseKey i)
  runOnKEY { s1 with key := s1.key ||| (1 <<< i) % 2 ^ 32 }

/-- Interpret one stored callback. -/
def runCb (s : UIState) : Cb → UIState
  | Cb.releaseKey i => releaseKeyFn s i
  | Cb.marker id => { s with log := s.log ++ [Event.fired id] }
  | Cb.scheduleOnFire whn id => scheduleFuture s whn (Cb.marker id)

/-- Run a bucket's callbacks in registration order (the inner
`for _, future := range futurelist` loop over the slice snapshot). -/
def runCbs (s : UIState) : List Cb → UIState
  | [] => s
  | c :: cs => runCbs (runCb s c) cs

/-- Current bucket contents for a key (empty when absent). -/
def lookupBucket : List (Nat × List Cb) → Nat → List Cb
  | [], _ => []
  | (k, l) :: rest, whn => if k = whn then l else lookupBucket rest whn

/-- `delete(s.futures, k)`. -/
def eraseBucket : List (Nat × List Cb) → Nat → List (Nat × List Cb)
  | [], _ => []
  | (k, l) :: rest, whn => if k = whn then rest else (k, l) :: eraseBucket rest whn

/-- The `for k, futurelist := range s.futures` pass of `tick`: for each key of
the snapshot, if `s.Tick >= k`, run the bucket's current callbacks and then
delete the bucket. -/
def firePass : UIState → List Nat → UIState
  | s, [] => s
  | s, k :: ks =>
    if s.Tick ≥ k then
      let s1 := runCbs s (lookupBucket s.futures k)
      firePass { s1 with futures := eraseBucket s1.futures k } ks
    else
      firePass s ks

/-- One firing pass over the keys present when the pass starts. -/
def fireStep (s : UIState) : UIState :=
  firePass s (s.futures.map Prod.fst)

/-- The `if s.OnTick != nil { s.OnTick(s, final) }` call, with `OnTick`
modelled per the spec's premise: the caller increments `Tick` by exactly 1
per step (a `uint64` increment) and the invocation is recorded. -/
def runOnTick (s : UIState) (final : Bool) : UIState :=
  { s with Tick := (s.Tick + 1) % 2 ^ 64, log := s.log ++ [Event.onTick final] }

/-- One iteration of `tick`'s loop: fire due futures, then `OnTick`. -/
def tickStep (s : UIState) (final : Bool) : UIState :=
  runOnTick (fireStep s) final

/-- The `for i := 0; i < count; i++` loop, by remaining iterations; the flag
`(i+1) >= count` is true exactly on the last iteration. -/
def tickRun : UIState → Nat → UIState
  | s, 0 => s
  | s, r + 1 => tickRun (tickStep s (r == 0)) r

/-- `tick(count)`: early return on `count == 0`, otherwise run the steps and
refresh the cycle label (`fmt.Sprintf("cycle# %d", s.Tick)`). -/
def tick (s : UIState) (count : Nat) : UIState :=
  if count = 0 then s
  else
    let s1 := tickRun s count
    { s1 with cycleLabel := "cycle# " ++ toString s1.Tick }

/-- `ClearFutures`. -/
def clearFutures (s : UIState) : UIState :=
  { s with futures := [] }

/-- A sequence of `ScheduleFuture(when, Cb.marker id)` calls, one per pair. -/
def runSchedule (s : UIState) (l : List (Nat × Nat)) : UIState :=
  l.foldl (fun s p => scheduleFuture s p.1 (Cb.marker p.2)) s

/-- A sequence of `tick` calls with the given counts. -/
def runTicks (s : UIState) (cs : List Nat) : UIState :=
  cs.foldl tick s

/-- The registry produced by scheduling the markers of `l` in order. -/
def buildF (l : List (Nat × Nat)) : List (Nat × List Cb) :=
  l.foldl (fun f p => addToBucket f p.1 (Cb.marker p.2)) []

/-- Firing events of the markers of a bucket, in registration order. -/
def markerEvts (cbs : List Cb) : List Event :=
  cbs.filterMap fun c =>
    match c with
    | Cb.marker id => some (Event.fired id)
    | _ => none

/-- Whether a callback is an observer marker. -/
def isMarker : Cb → Bool
  | Cb.marker _ => true
  | _ => false

/-- Every callback of the list is an observer marker. -/
def allMarker (cbs : List Cb) : Prop :=
  ∀ c ∈ cbs, isMarker c = true

/-- Every bucket of the registry holds only observer markers. -/
def markerFutures (f : List (Nat × List Cb)) : Prop :=
  ∀ p ∈ f, allMarker p.2

instance (cbs : List Cb) : Decidable (allMarker cbs) :=
  List.decidableBAll (fun c => isMarker c = true) cbs

instance (f : List (Nat × List Cb)) : Decidable (markerFutures f) :=
  List.decidableBAll (fun (p : Nat × List Cb) => allMarker p.2) f

/-- Concatenated marker events of a list of buckets, in bucket order. -/
def eventsOfBuckets : List (Nat × List Cb) → List Event
  | [] => []
  | p :: f => markerEvts p.2 ++ eventsOfBuckets f

/-- How many times the marker `id` has fired in a log. -/
def countFired (id : Nat) (l : List Event) : Nat :=
  l.countP fun e => e == Event.fired id

/-- The `final` flags of the per-tick callback invocations of a log, in
order. -/
def onTickFlags (l : List Event) : List Bool :=
  l.filterMap fun e =>
    match e with
    | Event.onTick b => some b
    | _ => none

/-- Total number of `releaseKey i` callbacks pending in a registry. -/
def countRelease (i : Nat) (f : List (Nat × List Cb)) : Nat :=
  (f.map fun p => p.2.countP fun c => c == Cb.releaseKey i).sum

theorem ledMask_red : ledMaskFn numRedLeds = 2 ^ 18 - 1 := by decide

theorem ledMask_green : ledMaskFn numGreenLeds = 2 ^ 9 - 1 := by decide

theorem and_ledMask_red (v : Nat) : v &&& ledMaskFn numRedLeds = v % 2 ^ 18 := by
  rw [ledMask_red]
  exact Nat.and_pow_two_sub_one_eq_mod v 18

theorem and_ledMask_green (v : Nat) : v &&& ledMaskFn numGreenLeds = v % 2 ^ 9 := by
  rw [ledMask_green]
  exact Nat.and_pow_two_sub_one_eq_mod v 9

/-- Claim C7 (confirmed): `tick(0)` returns before the loop and before the
cycle-label refresh: it fires no scheduled future, never invokes the per-tick
callback, leaves the displayed cycle text unchanged, and in fact leaves the
whole state unchanged. -/
theorem c7_advance_zero (s : UIState) :
    (tick s 0).futures = s.futures ∧ (tick s 0).log = s.log
      ∧ (tick s 0).cycleLabel = s.cycleLabel ∧ tick s 0 = s := by
  simp [tick]

/-- Claim C9 (confirmed): `SetLEDG(v)` stores `v` masked to 9 bits in the
green LED widget, leaves the red bank untouched, but formats the green
numeric label from the red LED widget's state (`s.ledrWidget.State()` in the
source), so the green label always shows the red bank's current value. -/
theorem c9_green_label_from_red (s : UIState) (v : Nat) :
    (setLEDG s v).ledg = v % 2 ^ 9 ∧ (setLEDG s v).ledr = s.ledr
      ∧ (setLEDG s v).ledgLabel = hexLabel 3 s.ledr := by
  exact ⟨and_ledMask_green v, rfl, rfl⟩

/-- Claim C6 (confirmed): for every 32-bit value, `SetLEDR` stores only the
low 18 bits and `SetLEDG` only the low 9 bits, and reading the widget state
back yields the masked value — different from the original whenever the
original exceeded the bank width. -/
theorem c6_led_masking (s : UIState) (v : Nat) (hv : v < 2 ^ 32) :
    (setLEDR s v).ledr = v % 2 ^ 18 ∧ (setLEDG s v).ledg = v % 2 ^ 9
      ∧ (2 ^ 18 ≤ v → (setLEDR s v).ledr ≠ v)
      ∧ (2 ^ 9 ≤ v → (setLEDG s v).ledg ≠ v) := by
  refine ⟨and_ledMask_red v, and_ledMask_green v, ?_, ?_⟩
  · intro hle
    rw [show (setLEDR s v).ledr = v % 2 ^ 18 from and_ledMask_red v]
    have := Nat.mod_lt v (show 0 < 2 ^ 18 by decide)
    omega
  · intro hle
    rw [show (setLEDG s v).ledg = v % 2 ^ 9 from and_ledMask_green v]
    have := Nat.mod_lt v (show 0 < 2 ^ 9 by decide)
    omega

theorem c6_led_masking_witness :
    (1048576 < 2 ^ 32)
      ∧ ((setLEDR initState 1048576).ledr = 1048576 % 2 ^ 18
        ∧ (setLEDG initState 1048576).ledg = 1048576 % 2 ^ 9
        ∧ (2 ^ 18 ≤ 1048576 → (setLEDR initState 1048576).ledr ≠ 1048576)
        ∧ (2 ^ 9 ≤ 1048576 → (setLEDG initState 1048576).ledg ≠ 1048576)) :=
  ⟨by decide, c6_led_masking initState 1048576 (by decide)⟩

/-- Claim C3, counterexample: `SetHEX(-1, 0)` computes the Go remainder
`-1 % 8 = -1` and panics on the negative slice index — the call does not wrap
and does fault. -/
theorem c3_counterexample : setHEX initState (-1) 0 = none := by decide

/-- Claim C3 (corrected): for every non-negative index `i`, `SetHEX(i, v)`
wraps the index modulo the digit count and updates the digit at position
`i mod 8` without faulting.  (The claim's "every integer index" fails for
some negative indices: at `i = -1` the Go truncated remainder is `-1` and
slice indexing panics, as the counterexample shows.  Not every negative index
faults — `-8 % 8 = 0` in Go, so `SetHEX(-8, v)` updates digit 0 — but the
wrap-without-fault guarantee only holds in general for `i ≥ 0`.) -/
theorem c3_amended (s : UIState) (i : Int) (v : Nat) (hi : 0 ≤ i)
    (hlen : s.hex.length = numHex) :
    setHEX s i v = some { s with hex := s.hex.set (i.toNat % numHex) v } := by
  obtain ⟨n, rfl⟩ : ∃ n : Nat, i = Int.ofNat n := ⟨i.toNat, (Int.toNat_of_nonneg hi).symm⟩
  have htm : Int.tmod (Int.ofNat n) (Int.ofNat numHex) = Int.ofNat (n % numHex) := rfl
  simp only [setHEX, htm, hlen]
  rw [if_pos]
  · rfl
  · exact ⟨Int.ofNat_le.mpr (Nat.zero_le _),
      Int.ofNat_lt.mpr (Nat.mod_lt _ (show 0 < numHex by decide))⟩

theorem c3_amended_witness :
    ((0 : Int) ≤ 11) ∧ initState.hex.length = numHex
      ∧ setHEX initState 11 7
          = some { initState with hex := initState.hex.set ((11 : Int).toNat % numHex) 7 } :=
  ⟨by decide, by decide, c3_amended initState 11 7 (by decide) (by decide)⟩

theorem onTickFlags_append (l1 l2 : List Event) :
    onTickFlags (l1 ++ l2) = onTickFlags l1 ++ onTickFlags l2 := by
  simp [onTickFlags, List.filterMap_append]

theorem runCb_onTickFlags (s : UIState) (c : Cb) :
    onTickFlags (runCb s c).log = onTickFlags s.log := by
  cases c <;>
    simp [runCb, releaseKeyFn, runOnKEY, scheduleFuture, onTickFlags_append, onTickFlags]

theorem runCbs_onTickFlags (cbs : List Cb) :
    ∀ s : UIState, onTickFlags (runCbs s cbs).log = onTickFlags s.log := by
  induction cbs with
  | nil => intro s; rfl
  | cons c cs ih =>
    intro s
    rw [runCbs, ih, runCb_onTickFlags]

theorem firePass_onTickFlags (ks : List Nat) :
    ∀ s : UIState, onTickFlags (firePass s ks).log = onTickFlags s.log := by
  induction ks with
  | nil => intro s; rfl
  | cons k ks ih =>
    intro s
    rw [firePass]
    by_cases h : s.Tick ≥ k
    · rw [if_pos h, ih]
      exact runCbs_onTickFlags _ s
    · rw [if_neg h, ih]

theorem fireStep_onTickFlags (s : UIState) :
    onTickFlags (fireStep s).log = onTickFlags s.log :=
  firePass_onTickFlags _ s

theorem tickStep_onTickFlags (s : UIState) (b : Bool) :
    onTickFlags (tickStep s b).log = onTickFlags s.log ++ [b] := by
  rw [tickStep, runOnTick]
  show onTickFlags ((fireStep s).log ++ [Event.onTick b]) = _
  rw [onTickFlags_append, fireStep_onTickFlags]
  rfl

theorem tickRun_onTickFlags (r : Nat) :
    ∀ s : UIState,
      onTickFlags (tickRun s (r + 1)).log
        = onTickFlags s.log ++ (List.replicate r false ++ [true]) := by
  induction r with
  | zero =>
    intro s
    show onTickFlags (tickStep s true).log = _
    rw [tickStep_onTickFlags]
    rfl
  | succ r ih =>
    intro s
    show onTickFlags (tickRun (tickStep s false) (r + 1)).log = _
    rw [ih, tickStep_onTickFlags, List.replicate_succ]
    simp

/-- Claim C2 (confirmed): for every `count ≥ 1`, one `tick(count)` call
invokes the per-tick callback exactly `count` times, with the final-step flag
false on the first `count - 1` invocations and true on exactly the last
one. -/
theorem c2_per_tick_flags (s : UIState) (c : Nat) (h : 1 ≤ c) :
    onTickFlags (tick s c).log
      = onTickFlags s.log ++ (List.replicate (c - 1) false ++ [true]) := by
  obtain ⟨r, rfl⟩ : ∃ r, c = r + 1 := ⟨c - 1, by omega⟩
  rw [tick, if_neg (by omega)]
  show onTickFlags (tickRun s (r + 1)).log = _
  rw [tickRun_onTickFlags]
  rfl

theorem c2_per_tick_flags_witness :
    1 ≤ 3
      ∧ onTickFlags (tick initState 3).log
          = onTickFlags initState.log ++ (List.replicate (3 - 1) false ++ [true]) :=
  ⟨by decide, c2_per_tick_flags initState 3 (by decide)⟩

theorem lookupBucket_addToBucket_self (f : List (Nat × List Cb)) (whn : Nat) (c : Cb) :
    lookupBucket (addToBucket f whn c) whn = lookupBucket f whn ++ [c] := by
  induction f with
  | nil => simp [addToBucket, lookupBucket]
  | cons p rest ih =>
    obtain ⟨k, l⟩ := p
    by_cases h : k = whn
    · subst h
      simp [addToBucket, lookupBucket]
    · simp [addToBucket, lookupBucket, h, ih]

theorem shiftLeft_one_mod (i : Nat) (hi : i < 32) : (1 <<< i) % 2 ^ 32 = 2 ^ i := by
  rw [Nat.shiftLeft_eq, Nat.one_mul]
  exact Nat.mod_eq_of_lt (Nat.pow_lt_pow_right (by norm_num) hi)

theorem releaseKey_clears_bit (s : UIState) (i : Nat) (hi : i < 32) :
    (runCb s (Cb.releaseKey i)).key.testBit i = false := by
  show ((s.key &&& ((2 ^ 32 - 1) ^^^ (1 <<< i) % 2 ^ 32)).testBit i) = false
  rw [shiftLeft_one_mod i hi, Nat.testBit_and, Nat.testBit_xor,
    Nat.testBit_two_pow_sub_one, Nat.testBit_two_pow_self, decide_eq_true hi]
  simp

/-- Claim C4 (confirmed): `pushKey(i)` sets bit `i` of the key bank and
invokes `OnKEY` synchronously before returning; it schedules a `releaseKey i`
future in the bucket for `t_release = Tick + r`, which lies in
`[Tick + 10, Tick + 260)` because the pseudo-random draw `r` lies in
`[KeyPushMinTime, KeyPushMinTime + KeyPushMaxTime)`; and firing that release
on any state clears bit `i` and invokes `OnKEY` again. -/
theorem c4_push_key (s s2 : UIState) (i r : Nat) (hi : i < 4)
    (hr1 : KeyPushMinTime ≤ r) (hr2 : r < KeyPushMinTime + KeyPushMaxTime)
    (hov : s.Tick + r < 2 ^ 64) :
    (pushKey s i r).key.testBit i = true
      ∧ (pushKey s i r).log = s.log ++ [Event.onKey (pushKey s i r).key]
      ∧ s.Tick + 10 ≤ s.Tick + r ∧ s.Tick + r < s.Tick + 260
      ∧ lookupBucket (pushKey s i r).futures (s.Tick + r)
          = lookupBucket s.futures (s.Tick + r) ++ [Cb.releaseKey i]
      ∧ (runCb s2 (Cb.releaseKey i)).key.testBit i = false
      ∧ (runCb s2 (Cb.releaseKey i)).log
          = s2.log ++ [Event.onKey (runCb s2 (Cb.releaseKey i)).key] := by
  have hi32 : i < 32 := by omega
  have hminmax : KeyPushMinTime = 10 ∧ KeyPushMaxTime = 250 := ⟨rfl, rfl⟩
  refine ⟨?_, rfl, by omega, by omega, ?_, releaseKey_clears_bit s2 i hi32, rfl⟩
  · show ((s.key ||| (1 <<< i) % 2 ^ 32).testBit i) = true
    rw [shiftLeft_one_mod i hi32]
    simp [Nat.testBit_or, Nat.testBit_two_pow_self]
  · show lookupBucket (addToBucket s.futures ((s.Tick + r) % 2 ^ 64) (Cb.releaseKey i))
        (s.Tick + r) = _
    rw [Nat.mod_eq_of_lt hov]
    exact lookupBucket_addToBucket_self s.futures (s.Tick + r) (Cb.releaseKey i)

theorem c4_push_key_witness :
    (0 < 4 ∧ KeyPushMinTime ≤ 10 ∧ 10 < KeyPushMinTime + KeyPushMaxTime
        ∧ initState.Tick + 10 < 2 ^ 64)
      ∧ ((pushKey initState 0 10).key.testBit 0 = true
        ∧ (pushKey initState 0 10).log
            = initState.log ++ [Event.onKey (pushKey initState 0 10).key]
        ∧ initState.Tick + 10 ≤ initState.Tick + 10
        ∧ initState.Tick + 10 < initState.Tick + 260
        ∧ lookupBucket (pushKey initState 0 10).futures (initState.Tick + 10)
            = lookupBucket initState.futures (initState.Tick + 10) ++ [Cb.releaseKey 0]
        ∧ (runCb initState (Cb.releaseKey 0)).key.testBit 0 = false
        ∧ (runCb initState (Cb.releaseKey 0)).log
            = initState.log ++ [Event.onKey (runCb initState (Cb.releaseKey 0)).key]) :=
  ⟨⟨by decide, by decide, by decide, by decide⟩,
    c4_push_key initState initState 0 10 (by decide) (by decide) (by decide) (by decide)⟩

theorem countRelease_addToBucket (f : List (Nat × List Cb)) (whn i : Nat) :
    countRelease i (addToBucket f whn (Cb.releaseKey i)) = countRelease i f + 1 := by
  induction f with
  | nil => simp [addToBucket, countRelease, List.countP_cons]
  | cons p rest ih =>
    obtain ⟨k, l⟩ := p
    by_cases h : k = whn
    · subst h
      simp [addToBucket, countRelease, List.countP_append, List.countP_cons]
      omega
    · simp [addToBucket, countRelease, h] at ih ⊢
      omega

theorem countRelease_pushKey (s : UIState) (i r : Nat) :
    countRelease i (pushKey s i r).futures = countRelease i s.futures + 1 :=
  countRelease_addToBucket s.futures ((s.Tick + r) % 2 ^ 64) i

/-- Clearing a bit that is already clear leaves a 32-bit key bank
unchanged. -/
theorem releaseKey_already_clear (u : UIState) (i : Nat) (hi : i < 32)
    (hu32 : u.key < 2 ^ 32) (hub : u.key.testBit i = false) :
    (runCb u (Cb.releaseKey i)).key = u.key := by
  show u.key &&& ((2 ^ 32 - 1) ^^^ (1 <<< i) % 2 ^ 32) = u.key
  rw [shiftLeft_one_mod i hi]
  apply Nat.eq_of_testBit_eq
  intro j
  rw [Nat.testBit_and, Nat.testBit_xor, Nat.testBit_two_pow_sub_one]
  by_cases hj : j < 32
  · by_cases hji : j = i
    · subst hji
      rw [Nat.testBit_two_pow_self, decide_eq_true hj, hub]
      rfl
    · rw [Nat.testBit_two_pow_of_ne (fun h => hji h.symm), decide_eq_true hj]
      simp
  · have hbit : u.key.testBit j = false :=
      Nat.testBit_lt_two_pow
        (lt_of_lt_of_le hu32 (Nat.pow_le_pow_right (by norm_num) (by omega)))
    rw [hbit]
    rfl

/-- A second `releaseKey i` firing leaves the key bank where the first firing
put it. -/
theorem releaseKey_idem (u : UIState) (i : Nat) :
    (runCb (runCb u (Cb.releaseKey i)) (Cb.releaseKey i)).key
      = (runCb u (Cb.releaseKey i)).key := by
  show ((u.key &&& ((2 ^ 32 - 1) ^^^ (1 <<< i) % 2 ^ 32))
      &&& ((2 ^ 32 - 1) ^^^ (1 <<< i) % 2 ^ 32))
    = u.key &&& ((2 ^ 32 - 1) ^^^ (1 <<< i) % 2 ^ 32)
  rw [Nat.and_assoc, Nat.and_self]

/-- Claim C8 (confirmed): re-pressing a held key schedules a second release
future without cancelling or rescheduling the pending one (the registry gains
two `releaseKey i` entries); firing a release clears the key's bit; and a
later release is idempotent — clearing the already-cleared bit leaves the key
bank unchanged and is not an error. -/
theorem c8_double_press (s u : UIState) (i r1 r2 : Nat) (hi : i < 32)
    (hu32 : u.key < 2 ^ 32) (hub : u.key.testBit i = false) :
    countRelease i (pushKey (pushKey s i r1) i r2).futures
        = countRelease i s.futures + 2
      ∧ (pushKey (pushKey s i r1) i r2).Tick = s.Tick
      ∧ (runCb (pushKey s i r1) (Cb.releaseKey i)).key.testBit i = false
      ∧ (runCb (runCb u (Cb.releaseKey i)) (Cb.releaseKey i)).key
          = (runCb u (Cb.releaseKey i)).key
      ∧ (runCb u (Cb.releaseKey i)).key = u.key := by
  refine ⟨?_, rfl, releaseKey_clears_bit _ i hi, releaseKey_idem u i,
    releaseKey_already_clear u i hi hu32 hub⟩
  rw [countRelease_pushKey, countRelease_pushKey]

theorem c8_double_press_witness :
    (1 < 32 ∧ initState.key < 2 ^ 32 ∧ initState.key.testBit 1 = false)
      ∧ (countRelease 1 (pushKey (pushKey initState 1 10) 1 50).futures
            = countRelease 1 initState.futures + 2
        ∧ (pushKey (pushKey initState 1 10) 1 50).Tick = initState.Tick
        ∧ (runCb (pushKey initState 1 10) (Cb.releaseKey 1)).key.testBit 1 = false
        ∧ (runCb (runCb initState (Cb.releaseKey 1)) (Cb.releaseKey 1)).key
            = (runCb initState (Cb.releaseKey 1)).key
        ∧ (runCb initState (Cb.releaseKey 1)).key = initState.key) :=
  ⟨⟨by decide, by decide, by decide⟩,
    c8_double_press initState initState 1 10 50 (by decide) (by decide) (by decide)⟩

theorem lookupBucket_append_head (P F : List (Nat × List Cb)) (k : Nat) (cbs : List Cb)
    (hkP : k ∉ P.map Prod.fst) :
    lookupBucket (P ++ (k, cbs) :: F) k = cbs := by
  induction P with
  | nil => simp [lookupBucket]
  | cons p rest ih =>
    obtain ⟨k', l'⟩ := p
    have hk' : k' ≠ k := by
      intro h
      exact hkP (by simp [h])
    simp only [List.cons_append, lookupBucket, if_neg hk']
    exact ih fun h => hkP (List.mem_cons_of_mem _ h)

theorem eraseBucket_append_head (P F : List (Nat × List Cb)) (k : Nat) (cbs : List Cb)
    (hkP : k ∉ P.map Prod.fst) :
    eraseBucket (P ++ (k, cbs) :: F) k = P ++ F := by
  induction P with
  | nil => simp [eraseBucket]
  | cons p rest ih =>
    obtain ⟨k', l'⟩ := p
    have hk' : k' ≠ k := by
      intro h
      exact hkP (by simp [h])
    simp only [List.cons_append, eraseBucket, if_neg hk']
    exact congrArg (List.cons (k', l')) (ih fun h => hkP (List.mem_cons_of_mem _ h))

theorem runCbs_markers (cbs : List Cb) (h : allMarker cbs) :
    ∀ s : UIState, runCbs s cbs = { s with log := s.log ++ markerEvts cbs } := by
  induction cbs with
  | nil => intro s; simp [runCbs, markerEvts]
  | cons c cs ih =>
    intro s
    have hc := h c (List.mem_cons_self _ _)
    obtain ⟨id, rfl⟩ : ∃ id, c = Cb.marker id := by
      cases c with
      | marker id => exact ⟨id, rfl⟩
      | releaseKey i => simp [isMarker] at hc
      | scheduleOnFire whn id => simp [isMarker] at hc
    rw [runCbs]
    rw [show runCb s (Cb.marker id) = { s with log := s.log ++ [Event.fired id] } from rfl]
    rw [ih (fun c hc => h c (List.mem_cons_of_mem _ hc))]
    simp [markerEvts]

/-- Characterization of one firing pass over a marker-only registry split as
`P ++ F`, where the pass visits the keys of `F`: every due bucket of `F` is
drained (its events appended in bucket order, each bucket's markers in
registration order) and removed; non-due buckets and `P` are kept. -/
theorem firePass_markers (F : List (Nat × List Cb)) :
    ∀ (P : List (Nat × List Cb)) (s : UIState),
      s.futures = P ++ F →
      markerFutures s.futures →
      (s.futures.map Prod.fst).Nodup →
      firePass s (F.map Prod.fst)
        = { s with
            futures := P ++ F.filter fun p => !decide (p.1 ≤ s.Tick),
            log := s.log ++ eventsOfBuckets (F.filter fun p => decide (p.1 ≤ s.Tick)) } := by
  induction F with
  | nil =>
    intro P s hf _ _
    have hP : P = s.futures := by rw [hf, List.append_nil]
    simp [firePass, eventsOfBuckets, hP]
  | cons p F' ih =>
    obtain ⟨k, cbs⟩ := p
    intro P s hf hm hnd
    have hnd' : ((P.map Prod.fst) ++ k :: (F'.map Prod.fst)).Nodup := by
      rw [hf, List.map_append, List.map_cons] at hnd
      exact hnd
    have hkP : k ∉ P.map Prod.fst := by
      rcases List.nodup_append.mp hnd' with ⟨_, _, hdisj⟩
      exact fun h => hdisj h (List.mem_cons_self _ _)
    have hmcbs : allMarker cbs := by
      apply hm (k, cbs)
      rw [hf]
      exact List.mem_append_right _ (List.mem_cons_self _ _)
    simp only [List.map_cons, firePass]
    by_cases hdue : s.Tick ≥ k
    · rw [if_pos hdue]
      have hlook : lookupBucket s.futures k = cbs := by
        rw [hf]
        exact lookupBucket_append_head P F' k cbs hkP
      have herase : eraseBucket s.futures k = P ++ F' := by
        rw [hf]
        exact eraseBucket_append_head P F' k cbs hkP
      rw [hlook, runCbs_markers cbs hmcbs s]
      simp only [herase]
      have hm2 : markerFutures (P ++ F') := by
        intro q hq
        apply hm q
        rw [hf]
        rcases List.mem_append.mp hq with h | h
        · exact List.mem_append_left _ h
        · exact List.mem_append_right _ (List.mem_cons_of_mem _ h)
      have hnd2 : (((P ++ F').map Prod.fst)).Nodup := by
        rw [List.map_append]
        refine List.Nodup.sublist ?_ hnd'
        exact (List.sublist_cons_self k _).append_left _
      rw [ih P { s with futures := P ++ F', log := s.log ++ markerEvts cbs } rfl hm2 hnd2]
      have hdec : decide (k ≤ s.Tick) = true := decide_eq_true hdue
      simp [List.filter_cons, hdec, eventsOfBuckets, List.append_assoc]
    · rw [if_neg hdue]
      have hf' : s.futures = (P ++ [(k, cbs)]) ++ F' := by
        rw [hf, List.append_assoc, List.singleton_append]
      rw [ih (P ++ [(k, cbs)]) s hf' hm hnd]
      have hdec : decide (k ≤ s.Tick) = false := decide_eq_false (by omega)
      simp [List.filter_cons, hdec, eventsOfBuckets, List.append_assoc]

/-- Characterization of `fireStep` on a marker-only registry with distinct
bucket keys. -/
theorem fireStep_markers (s : UIState) (hm : markerFutures s.futures)
    (hnd : (s.futures.map Prod.fst).Nodup) :
    fireStep s
      = { s with
          futures := s.futures.filter fun p => !decide (p.1 ≤ s.Tick),
          log := s.log ++ eventsOfBuckets (s.futures.filter fun p => decide (p.1 ≤ s.Tick)) } := by
  rw [fireStep, firePass_markers s.futures [] s (by simp) hm hnd]
  simp

/-- Claim C5 (confirmed): during each step of a tick advance over a registry
of observer callbacks with distinct bucket keys, every bucket whose key is
`<=` the observed `Tick` has all of its callbacks invoked — in bucket order,
each bucket in registration order — and the bucket is removed from the
registry entirely, while non-due buckets are untouched; all due buckets are
fully fired before the per-tick callback for that step runs; and a bucket
whose own callback schedules a new future for the same key during firing is
still removed entirely. -/
theorem c5_fire_due (s t : UIState) (k id : Nat) (b : Bool)
    (hnd : (s.futures.map Prod.fst).Nodup) (hm : markerFutures s.futures)
    (hk : k ≤ t.Tick) :
    (fireStep s).futures = (s.futures.filter fun p => !decide (p.1 ≤ s.Tick))
      ∧ (fireStep s).log
          = s.log ++ eventsOfBuckets (s.futures.filter fun p => decide (p.1 ≤ s.Tick))
      ∧ (tickStep s b).log = (fireStep s).log ++ [Event.onTick b]
      ∧ (fireStep { t with futures := [(k, [Cb.scheduleOnFire k id])] }).futures = [] := by
  refine ⟨?_, ?_, rfl, ?_⟩
  · rw [fireStep_markers s hm hnd]
  · rw [fireStep_markers s hm hnd]
  · show (firePass { t with futures := [(k, [Cb.scheduleOnFire k id])] } [k]).futures = []
    rw [firePass]
    rw [if_pos (show ({ t with futures := [(k, [Cb.scheduleOnFire k id])] } : UIState).Tick ≥ k from hk)]
    simp [firePass, runCbs, runCb, scheduleFuture, addToBucket, eraseBucket, lookupBucket]

theorem c5_fire_due_witness :
    ((((runSchedule initState [(0, 5), (2, 6)]).futures.map Prod.fst).Nodup
        ∧ markerFutures (runSchedule initState [(0, 5), (2, 6)]).futures
        ∧ 0 ≤ initState.Tick)
      ∧ ((fireStep (runSchedule initState [(0, 5), (2, 6)])).futures
            = ((runSchedule initState [(0, 5), (2, 6)]).futures.filter
                fun p => !decide (p.1 ≤ (runSchedule initState [(0, 5), (2, 6)]).Tick))
        ∧ (fireStep (runSchedule initState [(0, 5), (2, 6)])).log
            = (runSchedule initState [(0, 5), (2, 6)]).log
              ++ eventsOfBuckets ((runSchedule initState [(0, 5), (2, 6)]).futures.filter
                  fun p => decide (p.1 ≤ (runSchedule initState [(0, 5), (2, 6)]).Tick))
        ∧ (tickStep (runSchedule initState [(0, 5), (2, 6)]) true).log
            = (fireStep (runSchedule initState [(0, 5), (2, 6)])).log ++ [Event.onTick true]
        ∧ (fireStep { initState with futures := [(0, [Cb.scheduleOnFire 0 9])] }).futures = [])) :=
  ⟨⟨by decide, by decide, by decide⟩,
    c5_fire_due (runSchedule initState [(0, 5), (2, 6)]) initState 0 9 true
      (by decide) (by decide) (by decide)⟩

theorem countFired_append (id : Nat) (l1 l2 : List Event) :
    countFired id (l1 ++ l2) = countFired id l1 + countFired id l2 :=
  List.countP_append _ _ _

theorem markerEvts_append (l1 l2 : List Cb) :
    markerEvts (l1 ++ l2) = markerEvts l1 ++ markerEvts l2 := by
  simp [markerEvts, List.filterMap_append]

theorem addToBucket_keys (f : List (Nat × List Cb)) (whn : Nat) (c : Cb) :
    (addToBucket f whn c).map Prod.fst
      = if whn ∈ f.map Prod.fst then f.map Prod.fst else f.map Prod.fst ++ [whn] := by
  induction f with
  | nil => simp [addToBucket]
  | cons p rest ih =>
    obtain ⟨k, l⟩ := p
    by_cases h : k = whn
    · subst h
      simp [addToBucket]
    · simp only [addToBucket, if_neg h, List.map_cons, ih]
      by_cases hmem : whn ∈ rest.map Prod.fst
      · rw [if_pos hmem, if_pos (by simp [hmem])]
      · rw [if_neg hmem, if_neg (by simp [hmem, Ne.symm h])]
        simp

theorem addToBucket_nodup (f : List (Nat × List Cb)) (whn : Nat) (c : Cb)
    (hnd : (f.map Prod.fst).Nodup) : ((addToBucket f whn c).map Prod.fst).Nodup := by
  rw [addToBucket_keys]
  by_cases hmem : whn ∈ f.map Prod.fst
  · rwa [if_pos hmem]
  · rw [if_neg hmem]
    refine List.nodup_append.mpr ⟨hnd, List.nodup_singleton _, ?_⟩
    intro a ha ha'
    rw [List.mem_singleton] at ha'
    subst ha'
    exact hmem ha

theorem cb_mem_addToBucket (whn : Nat) (c : Cb) :
    ∀ (f : List (Nat × List Cb)) (p : Nat × List Cb), p ∈ addToBucket f whn c →
      ∀ cb ∈ p.2, cb = c ∨ ∃ q ∈ f, cb ∈ q.2 := by
  intro f
  induction f with
  | nil =>
    intro p hp cb hcb
    rw [show addToBucket [] whn c = [(whn, [c])] from rfl, List.mem_singleton] at hp
    subst hp
    rcases List.mem_singleton.mp hcb with rfl
    exact Or.inl rfl
  | cons q rest ih =>
    obtain ⟨k, l⟩ := q
    intro p hp cb hcb
    by_cases h : k = whn
    · subst h
      rw [show addToBucket ((k, l) :: rest) k c = (k, l ++ [c]) :: rest from by
        simp [addToBucket]] at hp
      rcases List.mem_cons.mp hp with hpe | hpr
      · subst hpe
        rcases List.mem_append.mp hcb with hcl | hcc
        · exact Or.inr ⟨(k, l), List.mem_cons_self _ _, hcl⟩
        · exact Or.inl (List.mem_singleton.mp hcc)
      · exact Or.inr ⟨p, List.mem_cons_of_mem _ hpr, hcb⟩
    · rw [show addToBucket ((k, l) :: rest) whn c = (k, l) :: addToBucket rest whn c from by
        simp [addToBucket, h]] at hp
      rcases List.mem_cons.mp hp with hpe | hpr
      · subst hpe
        exact Or.inr ⟨(k, l), List.mem_cons_self _ _, hcb⟩
      · rcases ih p hpr cb hcb with h1 | ⟨q, hq, hcq⟩
        · exact Or.inl h1
        · exact Or.inr ⟨q, List.mem_cons_of_mem _ hq, hcq⟩

theorem addToBucket_markers (f : List (Nat × List Cb)) (whn id : Nat)
    (hm : markerFutures f) : markerFutures (addToBucket f whn (Cb.marker id)) := by
  intro p hp cb hcb
  rcases cb_mem_addToBucket whn (Cb.marker id) f p hp cb hcb with rfl | ⟨q, hq, hcq⟩
  · rfl
  · exact hm q hq cb hcq

theorem buildF_nodup (l : List (Nat × Nat)) : ((buildF l).map Prod.fst).Nodup := by
  have key : ∀ (f : List (Nat × List Cb)), (f.map Prod.fst).Nodup →
      ((l.foldl (fun f p => addToBucket f p.1 (Cb.marker p.2)) f).map Prod.fst).Nodup := by
    induction l with
    | nil => intro f hf; exact hf
    | cons p l' ih =>
      intro f hf
      exact ih _ (addToBucket_nodup f p.1 (Cb.marker p.2) hf)
  exact key [] (by simp)

theorem buildF_markers (l : List (Nat × Nat)) : markerFutures (buildF l) := by
  have key : ∀ (f : List (Nat × List Cb)), markerFutures f →
      markerFutures (l.foldl (fun f p => addToBucket f p.1 (Cb.marker p.2)) f) := by
    induction l with
    | nil => intro f hf; exact hf
    | cons p l' ih =>
      intro f hf
      exact ih _ (addToBucket_markers f p.1 p.2 hf)
  exact key [] (by intro p hp; cases hp)

theorem runSchedule_eq (l : List (Nat × Nat)) :
    ∀ s : UIState,
      runSchedule s l
        = { s with futures := l.foldl (fun f p => addToBucket f p.1 (Cb.marker p.2)) s.futures } := by
  induction l with
  | nil => intro s; rfl
  | cons p l' ih =>
    intro s
    show runSchedule (scheduleFuture s p.1 (Cb.marker p.2)) l' = _
    rw [ih]
    rfl

theorem countFired_markerEvts (id : Nat) (cbs : List Cb) :
    countFired id (markerEvts cbs) = cbs.countP fun c => c == Cb.marker id := by
  induction cbs with
  | nil => rfl
  | cons c cs ih =>
    cases c <;> simp [markerEvts, countFired, List.countP_cons] at ih ⊢ <;> simp [ih]

/-- Number of `fired id` events contributed by the bucket for key `j`. -/
def sliceCount (j id : Nat) (f : List (Nat × List Cb)) : Nat :=
  countFired id (eventsOfBuckets (f.filter fun p => p.1 == j))

theorem sliceCount_cons (j id k : Nat) (bl : List Cb) (rest : List (Nat × List Cb)) :
    sliceCount j id ((k, bl) :: rest)
      = (if k = j then countFired id (markerEvts bl) else 0) + sliceCount j id rest := by
  by_cases h : k = j
  · subst h
    simp [sliceCount, List.filter_cons, eventsOfBuckets, countFired_append]
  · simp [sliceCount, List.filter_cons, h]

theorem sliceCount_addToBucket (j id w i : Nat) :
    ∀ f : List (Nat × List Cb),
      sliceCount j id (addToBucket f w (Cb.marker i))
        = sliceCount j id f + (if w = j ∧ i = id then 1 else 0) := by
  intro f
  induction f with
  | nil =>
    rw [show addToBucket [] w (Cb.marker i) = [(w, [Cb.marker i])] from rfl,
      show ([] : List (Nat × List Cb)) = List.nil from rfl]
    rw [sliceCount_cons]
    by_cases hw : w = j <;> by_cases hi : i = id <;>
      simp [sliceCount, hw, hi, countFired, markerEvts, eventsOfBuckets]
  | cons q rest ih =>
    obtain ⟨k, bl⟩ := q
    by_cases hk : k = w
    · subst hk
      rw [show addToBucket ((k, bl) :: rest) k (Cb.marker i) = (k, bl ++ [Cb.marker i]) :: rest
          from by simp [addToBucket]]
      rw [sliceCount_cons, sliceCount_cons, markerEvts_append, countFired_append]
      by_cases hkj : k = j <;> by_cases hi : i = id <;>
        simp [hkj, hi, countFired, markerEvts] <;> omega
    · rw [show addToBucket ((k, bl) :: rest) w (Cb.marker i)
            = (k, bl) :: addToBucket rest w (Cb.marker i) from by simp [addToBucket, hk]]
      rw [sliceCount_cons, sliceCount_cons, ih]
      omega

theorem sliceCount_buildF (j id : Nat) (l : List (Nat × Nat)) :
    sliceCount j id (buildF l) = l.countP fun p => p.1 == j && p.2 == id := by
  have key : ∀ f : List (Nat × List Cb),
      sliceCount j id (l.foldl (fun f p => addToBucket f p.1 (Cb.marker p.2)) f)
        = sliceCount j id f + l.countP (fun p => p.1 == j && p.2 == id) := by
    induction l with
    | nil => intro f; simp
    | cons p l' ih =>
      intro f
      rw [List.foldl_cons, ih, sliceCount_addToBucket, List.countP_cons]
      by_cases h1 : p.1 = j <;> by_cases h2 : p.2 = id <;> simp [h1, h2] <;> omega
  have h0 : sliceCount j id ([] : List (Nat × List Cb)) = 0 := rfl
  have hk := key []
  rw [h0, Nat.zero_add] at hk
  exact hk

theorem filter_due_slice (F : List (Nat × List Cb)) (j : Nat) :
    ((F.filter fun p => decide (j ≤ p.1)).filter fun p => decide (p.1 ≤ j))
      = F.filter fun p => p.1 == j := by
  rw [List.filter_filter]
  apply List.filter_congr
  intro p _
  by_cases h : p.1 = j
  · simp [h]
  · by_cases h2 : p.1 ≤ j
    · have h3 : ¬ j ≤ p.1 := by omega
      simp [h2, h3, h]
    · simp [h2, h]

theorem filter_ge_succ (F : List (Nat × List Cb)) (j : Nat) :
    ((F.filter fun p => decide (j ≤ p.1)).filter fun p => !decide (p.1 ≤ j))
      = F.filter fun p => decide (j + 1 ≤ p.1) := by
  rw [List.filter_filter]
  apply List.filter_congr
  intro p _
  by_cases h : p.1 ≤ j
  · have h1 : ¬ (j + 1 ≤ p.1) := by omega
    simp [h, h1]
  · have h1 : j ≤ p.1 := by omega
    have h2 : j + 1 ≤ p.1 := by omega
    simp [h, h1, h2]

theorem countP_fired_split (l : List (Nat × Nat)) (id j : Nat) :
    (l.countP fun p => p.2 == id && decide (p.1 < j))
        + (l.countP fun p => p.1 == j && p.2 == id)
      = l.countP fun p => p.2 == id && decide (p.1 < j + 1) := by
  induction l with
  | nil => rfl
  | cons p l' ih =>
    rw [List.countP_cons, List.countP_cons, List.countP_cons]
    have hif : (if (p.2 == id && decide (p.1 < j) : Bool) then 1 else 0)
          + (if (p.1 == j && p.2 == id : Bool) then 1 else 0)
        = (if (p.2 == id && decide (p.1 < j + 1) : Bool) then 1 else 0) := by
      by_cases h1 : p.2 = id
      · by_cases h2 : p.1 < j
        · have h3 : p.1 ≠ j := by omega
          have h4 : p.1 < j + 1 := by omega
          simp [h1, h2, h3, h4]
        · by_cases h3 : p.1 = j
          · have h4 : p.1 < j + 1 := by omega
            simp [h1, h2, h3, h4]
          · have h4 : ¬ (p.1 < j + 1) := by omega
            simp [h1, h2, h3, h4]
      · simp [h1]
    omega

/-- Invariant of the marker-scheduling scenario after `j` total tick steps:
the observed tick is `j`, exactly the buckets for keys `>= j` are still
pending, and each marker has fired once per registration with target `< j`. -/
def schedInv (l : List (Nat × Nat)) (j : Nat) (s : UIState) : Prop :=
  s.Tick = j
    ∧ s.futures = ((buildF l).filter fun p => decide (j ≤ p.1))
    ∧ ∀ id, countFired id s.log = l.countP fun p => p.2 == id && decide (p.1 < j)

theorem schedInv_base (l : List (Nat × Nat)) : schedInv l 0 (runSchedule initState l) := by
  rw [runSchedule_eq]
  refine ⟨rfl, ?_, ?_⟩
  · show buildF l = (buildF l).filter fun p => decide (0 ≤ p.1)
    symm
    rw [List.filter_eq_self]
    intro a _
    exact decide_eq_true (Nat.zero_le _)
  · intro id
    show countFired id ([] : List Event) = _
    rw [show countFired id ([] : List Event) = 0 from rfl]
    symm
    rw [List.countP_eq_zero]
    intro a _
    simp

theorem schedInv_step (l : List (Nat × Nat)) (j : Nat) (s : UIState) (b : Bool)
    (hj : j + 1 < 2 ^ 64) (h : schedInv l j s) : schedInv l (j + 1) (tickStep s b) := by
  obtain ⟨hT, hF, hC⟩ := h
  have hm : markerFutures s.futures := by
    rw [hF]
    intro p hp
    exact buildF_markers l p (List.mem_of_mem_filter hp)
  have hnd : (s.futures.map Prod.fst).Nodup := by
    rw [hF]
    exact List.Nodup.sublist ((List.filter_sublist _).map Prod.fst) (buildF_nodup l)
  have hfs := fireStep_markers s hm hnd
  refine ⟨?_, ?_, ?_⟩
  · show ((fireStep s).Tick + 1) % 2 ^ 64 = j + 1
    simp only [hfs, hT]
    exact Nat.mod_eq_of_lt hj
  · show (fireStep s).futures = _
    simp only [hfs, hF, hT]
    exact filter_ge_succ (buildF l) j
  · intro id
    have hlog : (tickStep s b).log
        = s.log ++ eventsOfBuckets ((buildF l).filter fun p => p.1 == j)
            ++ [Event.onTick b] := by
      show (fireStep s).log ++ [Event.onTick b] = _
      simp only [hfs, hF, hT, filter_due_slice]
    rw [hlog, countFired_append, countFired_append, hC id,
      show countFired id [Event.onTick b] = 0 from rfl,
      show countFired id (eventsOfBuckets ((buildF l).filter fun p => p.1 == j))
          = l.countP (fun p => p.1 == j && p.2 == id) from sliceCount_buildF j id l]
    have hsplit := countP_fired_split l id j
    omega

theorem schedInv_tickRun (l : List (Nat × Nat)) :
    ∀ (c j : Nat) (s : UIState), schedInv l j s → j + c < 2 ^ 64 →
      schedInv l (j + c) (tickRun s c) := by
  intro c
  induction c with
  | zero =>
    intro j s h _
    rw [Nat.add_zero]
    exact h
  | succ r ih =>
    intro j s h hlt
    have h1 := schedInv_step l j s (r == 0) (by omega) h
    have h2 := ih (j + 1) (tickStep s (r == 0)) h1 (by omega)
    rw [show j + (r + 1) = j + 1 + r by omega]
    exact h2

theorem schedInv_tick (l : List (Nat × Nat)) (c j : Nat) (s : UIState)
    (h : schedInv l j s) (hlt : j + c < 2 ^ 64) : schedInv l (j + c) (tick s c) := by
  by_cases hc : c = 0
  · subst hc
    rw [Nat.add_zero]
    exact h
  · rw [tick, if_neg hc]
    obtain ⟨hT, hF, hC⟩ := schedInv_tickRun l c j s h hlt
    exact ⟨hT, hF, hC⟩

theorem schedInv_runTicks (l : List (Nat × Nat)) :
    ∀ (cs : List Nat) (j : Nat) (s : UIState),
      schedInv l j s → j + cs.sum < 2 ^ 64 →
      schedInv l (j + cs.sum) (runTicks s cs) := by
  intro cs
  induction cs with
  | nil =>
    intro j s h _
    rw [show (([] : List Nat).sum) = 0 from rfl, Nat.add_zero]
    exact h
  | cons c cs' ih =>
    intro j s h hlt
    have hsum : (c :: cs').sum = c + cs'.sum := by simp
    rw [hsum] at hlt
    have h1 := schedInv_tick l c j s h (by omega)
    have h2 := ih (j + c) (tick s c) h1 (by omega)
    rw [show j + (c :: cs').sum = j + c + cs'.sum by rw [hsum]; omega]
    exact h2

/-- Claim C1, counterexample to the stated boundary: from a fresh state,
schedule a callback for tick 1 and advance once with the incrementing
per-tick callback.  The final Tick value is 1 and the callback's
`when = 1 <= 1`, yet it has fired zero times: `fire_due` observes the Tick
value of each step before the per-tick callback increments it, so a future
scheduled for exactly the final Tick value has not yet fired. -/
theorem c1_counterexample :
    (runTicks (runSchedule initState [(1, 7)]) [1]).Tick = 1
      ∧ countFired 7 (runTicks (runSchedule initState [(1, 7)]) [1]).log = 0 := by
  decide

/-- Claim C1 (corrected): for every sequence of `ScheduleFuture(when, id)`
registrations of observer callbacks followed by any sequence of tick-driver
calls whose per-tick callback increments `Tick` by exactly 1 per step
(without the `uint64` tick counter wrapping), each registered callback has
fired exactly once if its target is strictly below the final Tick value, and
zero times otherwise — in particular no callback ever fires more than once,
even across multiple subsequent `tick` calls. -/
theorem c1_fires_exactly_once (l : List (Nat × Nat)) (cs : List Nat) (id : Nat)
    (h : cs.sum < 2 ^ 64) :
    countFired id (runTicks (runSchedule initState l) cs).log
      = l.countP fun p => p.2 == id && decide (p.1 < cs.sum) := by
  have hinv := schedInv_runTicks l cs 0 (runSchedule initState l) (schedInv_base l)
    (by omega)
  rw [Nat.zero_add] at hinv
  exact hinv.2.2 id

theorem c1_fires_exactly_once_witness :
    ([2, 3].sum < 2 ^ 64)
      ∧ countFired 7 (runTicks (runSchedule initState [(0, 7), (4, 7), (9, 8)]) [2, 3]).log
          = [(0, 7), (4, 7), (9, 8)].countP fun p => p.2 == 7 && decide (p.1 < [2, 3].sum) :=
  ⟨by decide, c1_fires_exactly_once [(0, 7), (4, 7), (9, 8)] [2, 3] 7 (by decide)⟩
